import Mathlib

/-!
Verification of the hanami-wasm-search engine (Rust, wasm) against its
natural-language specification.  The definitions below are a shallow
embedding of the Rust sources:

  * crate/src/lib.rs   — the current engine iteration (`Index` with
    `postings`, `doc_len`, `doc_aliases`, `n_docs`, `k1`, `b`),
  * crate/src/search.rs — the `SearchEngine` with the AND-search path,
  * crate/src/cache.rs  — the `StringCache` and `MatchPriority`.

Rust hash maps are modelled as association lists (`List (String × _)`);
map iteration order is fixed by the list, which no verified property
depends on.  Rust machine integers become `Nat`; the two `f32` ranking
parameters are carried as their 32-bit patterns (`Nat`), and scores are
modelled by `Rat` (for the comparator path, which only compares) or by
their bit patterns (for the heap path, which compares `to_bits()`
values).  External collaborators (serde_json parsing, the wana_kana
transliteration and Unicode lowercasing) are passed in as function
parameters, exactly at the boundary where the Rust code calls them.
-/

/-- Byte length of a string in UTF-8, as computed by Rust's `str::len`. -/
def utf8Len (s : String) : Nat :=
  s.data.foldl (fun n c => n + c.utf8Size) 0

/-- Model of `tokenize_2gram` (crate/src/lib.rs, lines 25–56): for zero
characters the empty list, for one character the text itself, otherwise
every overlapping two-character window (built there from `char_indices`
byte slices, hence never splitting a code point) followed by the whole
text. -/
def tokenize_2gram (text : String) : List String :=
  let cs := text.data
  if cs.length ≤ 1 then
    if cs.length = 0 then [] else [text]
  else
    ((cs.zip cs.tail).map (fun p => String.mk [p.1, p.2])) ++ [text]

/-- Overlapping two-character windows of a character list, written as the
specification phrases it: every adjacent pair, left to right. -/
def bigramsOfChars : List Char → List String
  | a :: b :: rest => String.mk [a, b] :: bigramsOfChars (b :: rest)
  | _ => []

/-- Reference tokenizer, transcribed from the specification sentence
(§4.1): 0 characters ↦ empty; 1 character ↦ the text; otherwise the
overlapping two-character substrings followed by the original text. -/
def bigramsSpec (text : String) : List String :=
  match text.data with
  | [] => []
  | [_] => [text]
  | _ => bigramsOfChars text.data ++ [text]

theorem zip_tail_eq_bigramsOfChars :
    ∀ cs : List Char,
      (cs.zip cs.tail).map (fun p => String.mk [p.1, p.2]) = bigramsOfChars cs := by
  intro cs
  induction cs with
  | nil => rfl
  | cons a tail ih =>
    cases tail with
    | nil => rfl
    | cons b rest =>
      simp only [List.tail_cons, List.zip_cons_cons, List.map_cons, bigramsOfChars]
      exact congrArg _ ih

/-- C8 (counterexample): the claim asserts bigrams of a two-character
string form a one-element sequence, bigrams of "ab" being just the
string "ab"; the code appends the full original text after the single
two-character window, yielding the string twice. -/
theorem tokenize_2gram_two_char_duplicates :
    tokenize_2gram "ab" = ["ab", "ab"] := by decide

/-- C8 (amended): the tokenizer agrees everywhere with the
specification's general description (empty ↦ empty, single character ↦
that string, otherwise the overlapping two-character substrings in order
followed by the whole text — for a two-character string this makes the
string appear twice), and in particular bigrams of the empty string is
the empty sequence, of "a" the sequence holding just "a", of "ab" the
sequence "ab", "ab", and of "abc" the sequence "ab", "bc", "abc";
operating on code points, it never splits a multi-byte character
(checked on a three-character Japanese string). -/
theorem tokenize_2gram_matches_spec :
    (∀ s : String, tokenize_2gram s = bigramsSpec s) ∧
    tokenize_2gram "" = [] ∧
    tokenize_2gram "a" = ["a"] ∧
    tokenize_2gram "ab" = ["ab", "ab"] ∧
    tokenize_2gram "abc" = ["ab", "bc", "abc"] ∧
    tokenize_2gram "あいう" = ["あい", "いう", "あいう"] := by
  refine ⟨?_, by decide, by decide, by decide, by decide, by decide⟩
  intro s
  unfold tokenize_2gram bigramsSpec
  cases h : s.data with
  | nil => simp [h]
  | cons a tail =>
    cases tail with
    | nil => simp [h]
    | cons b rest =>
      simp only [h, List.length_cons]
      rw [if_neg (by omega)]
      rw [← h, zip_tail_eq_bigramsOfChars]

/-! ## Association lists standing in for the Rust hash maps -/

/-- Lookup in an association list, as `HashMap::get` (keys are unique in
every reachable state, so first match is the match). -/
def alookup {α : Type} (k : String) : List (String × α) → Option α
  | [] => none
  | (k2, v) :: rest => if k2 = k then some v else alookup k rest

/-- Removal of a key, as `HashMap::remove`. -/
def aerase {α : Type} (k : String) : List (String × α) → List (String × α)
  | [] => []
  | (k2, v) :: rest => if k2 = k then aerase k rest else (k2, v) :: aerase k rest

/-- Insertion of a binding, as `HashMap::insert` (replaces an existing
binding for the key, otherwise appends). -/
def ainsert {α : Type} (k : String) (v : α) : List (String × α) → List (String × α)
  | [] => [(k, v)]
  | (k2, v2) :: rest => if k2 = k then (k, v) :: rest else (k2, v2) :: ainsert k v rest

/-- Model of `self.postings.entry(token).or_default().push(doc)`:
append `doc` to the token's posting list, creating the list if absent. -/
def pushPosting (token doc : String) : List (String × List String) → List (String × List String)
  | [] => [(token, [doc])]
  | (k, vs) :: rest =>
      if k = token then (k, vs ++ [doc]) :: rest else (k, vs) :: pushPosting token doc rest

@[simp] theorem alookup_nil {α : Type} (k : String) : alookup (α := α) k [] = none := rfl

theorem alookup_aerase_self {α : Type} (k : String) :
    ∀ l : List (String × α), alookup k (aerase k l) = none := by
  intro l
  induction l with
  | nil => rfl
  | cons p rest ih =>
    by_cases h : p.1 = k
    · simpa [aerase, h] using ih
    · simpa [aerase, alookup, h] using ih

theorem aerase_of_alookup_none {α : Type} (k : String) :
    ∀ l : List (String × α), alookup k l = none → aerase k l = l := by
  intro l
  induction l with
  | nil => intro _; rfl
  | cons p rest ih =>
    intro h
    by_cases hk : p.1 = k
    · simp [alookup, hk] at h
    · simp only [aerase, hk, if_false, alookup] at h ⊢
      rw [ih h]

theorem keys_aerase {α : Type} (k : String) :
    ∀ l : List (String × α), (aerase k l).map Prod.fst = (l.map Prod.fst).filter (fun x => x ≠ k) := by
  intro l
  induction l with
  | nil => rfl
  | cons p rest ih =>
    by_cases h : p.1 = k
    · simp [aerase, h, List.filter, ih]
    · simp [aerase, h, List.filter, ih]

theorem length_aerase_of_mem {α : Type} (k : String) :
    ∀ l : List (String × α), (l.map Prod.fst).Nodup → (alookup k l).isSome →
      l.length = (aerase k l).length + 1 := by
  intro l
  induction l with
  | nil => intro _ h; simp [alookup] at h
  | cons p rest ih =>
    intro hnd hk
    simp only [List.map_cons, List.nodup_cons] at hnd
    by_cases h : p.1 = k
    · have : alookup k rest = none := by
        cases hr : alookup k rest with
        | none => rfl
        | some v =>
          exfalso
          apply hnd.1
          subst h
          clear ih hnd hk
          induction rest with
          | nil => simp [alookup] at hr
          | cons q t iht =>
            simp only [alookup] at hr
            by_cases hq : q.1 = p.1
            · simp [hq]
            · rw [if_neg hq] at hr
              simp [iht hr]
      simp [aerase, h, aerase_of_alookup_none k rest this]
    · simp only [alookup, if_neg h] at hk
      simp only [aerase, if_neg h, List.length_cons]
      rw [ih hnd.2 hk]

theorem alookup_isSome_of_key_mem {α : Type} (k : String) :
    ∀ l : List (String × α), k ∈ l.map Prod.fst → (alookup k l).isSome := by
  intro l
  induction l with
  | nil => intro h; simp at h
  | cons p rest ih =>
    intro h
    by_cases hp : p.1 = k
    · simp [alookup, hp]
    · simp only [List.map_cons, List.mem_cons] at h
      rcases h with h | h
      · exact absurd h.symm hp
      · simpa [alookup, hp] using ih h

theorem key_mem_of_alookup_isSome {α : Type} (k : String) :
    ∀ l : List (String × α), (alookup k l).isSome → k ∈ l.map Prod.fst := by
  intro l
  induction l with
  | nil => intro h; simp [alookup] at h
  | cons p rest ih =>
    intro h
    by_cases hp : p.1 = k
    · simp [hp]
    · simp only [alookup, if_neg hp] at h
      simpa using Or.inr (by simpa using ih h)

theorem ainsert_of_alookup_none {α : Type} (k : String) (v : α) :
    ∀ l : List (String × α), alookup k l = none → ainsert k v l = l ++ [(k, v)] := by
  intro l
  induction l with
  | nil => intro _; rfl
  | cons p rest ih =>
    intro h
    by_cases hp : p.1 = k
    · simp [alookup, hp] at h
    · simp only [alookup, if_neg hp] at h
      simp [ainsert, hp, ih h]

/-! ## The index data model (crate/src/lib.rs, struct `Index`) -/

/-- Model of the `Index` struct (crate/src/lib.rs, lines 89–98).  The two
`f32` ranking parameters `k1` and `b` are carried as their 32-bit
patterns; no verified property inspects their values. -/
structure Index where
  postings : List (String × List String)
  doc_len : List (String × Nat)
  doc_aliases : List (String × List String)
  n_docs : Nat
  k1 : Nat
  b : Nat
deriving DecidableEq, Repr

/-- Model of `Index::new` / `with_params`: empty maps, zero count. -/
def Index.mk0 (k1 b : Nat) : Index :=
  { postings := [], doc_len := [], doc_aliases := [], n_docs := 0, k1 := k1, b := b }

/-- Token scrub loop of `remove_doc` (crate/src/lib.rs, lines 528–544):
for each candidate token, filter the document out of its posting list,
dropping the list if it becomes empty; stop early when the entry for the
document's own name was present and unchanged. -/
def scrubTokens (doc : String) : List String → List (String × List String) → List (String × List String)
  | [], p => p
  | t :: rest, p =>
      match alookup t p with
      | none => scrubTokens doc rest p
      | some pl =>
          let pl2 := pl.filter (fun x => x ≠ doc)
          if pl2.isEmpty then scrubTokens doc rest (aerase t p)
          else if pl2.length = pl.length ∧ t = doc then ainsert t pl2 p
          else scrubTokens doc rest (ainsert t pl2 p)

/-- Fallback scrub of `remove_doc` (crate/src/lib.rs, lines 547–552):
`postings.retain` filters the document from every list and keeps an
entry when the list was unchanged or remains non-empty. -/
def scrubAll (doc : String) (p : List (String × List String)) : List (String × List String) :=
  p.filterMap (fun kv =>
    let pl2 := kv.2.filter (fun x => x ≠ doc)
    if pl2.length = kv.2.length ∨ pl2 ≠ [] then some (kv.1, pl2) else none)

/-- Model of `remove_doc` (crate/src/lib.rs, lines 502–555): early
return when the name is absent from `doc_len`; otherwise drop the
`doc_len` and `doc_aliases` entries, scrub the likely tokens (the name,
and its bigram tokens when the name is shorter than 50 bytes), scrub all
remaining posting lists as a fallback, and saturating-decrement
`n_docs`. -/
def remove_doc (doc : String) (i : Index) : Index :=
  match alookup doc i.doc_len with
  | none => i
  | some _ =>
      let toks := doc :: (if utf8Len doc < 50 then tokenize_2gram doc else [])
      { postings := scrubAll doc (scrubTokens doc toks i.postings)
        doc_len := aerase doc i.doc_len
        doc_aliases := aerase doc i.doc_aliases
        n_docs := i.n_docs - 1
        k1 := i.k1
        b := i.b }

/-- Model of `removeDocument` (crate/src/lib.rs, lines 557–567): check
existence in `doc_len`, remove and report `true`, else report `false`. -/
def remove_document (doc : String) (i : Index) : Bool × Index :=
  if (alookup doc i.doc_len).isSome then (true, remove_doc doc i) else (false, i)

/-- Token-insertion loop shared by `add_documents` and `addDocument`
(crate/src/lib.rs, lines 176–179 and 596–599): push the document onto a
token's posting list unless the token was already seen for this
document. -/
def addTokens (doc : String) : List String → List String → List (String × List String) →
    List String × List (String × List String)
  | [], seen, p => (seen, p)
  | t :: rest, seen, p =>
      if t ∈ seen then addTokens doc rest seen p
      else addTokens doc rest (t :: seen) (pushPosting t doc p)

/-- Alias-indexing loop (crate/src/lib.rs, lines 182–191 and 602–611):
skip an alias already seen; otherwise index the alias itself and then
its bigram tokens. -/
def addAliases (doc : String) : List String → List String → List (String × List String) →
    List String × List (String × List String)
  | [], seen, p => (seen, p)
  | a :: rest, seen, p =>
      if a ∈ seen then addAliases doc rest seen p
      else
        let p1 := pushPosting a doc p
        let sp := addTokens doc (tokenize_2gram a) (a :: seen) p1
        addAliases doc rest sp.1 sp.2

/-- Per-document insertion body shared by `add_documents` and
`addDocument` (crate/src/lib.rs, lines 155–192 and 574–611): remove an
existing entry for the name, record length `aliases.len() + 1` and the
aliases, bump `n_docs`, then index the name, the name's bigrams, and
each alias with its bigrams. -/
def add_document_core (name : String) (aliases : List String) (i : Index) : Index :=
  let i2 := if (alookup name i.doc_len).isSome then remove_doc name i else i
  let p0 := pushPosting name name i2.postings
  let sp := addTokens name (tokenize_2gram name) [name] p0
  let sp2 := addAliases name aliases sp.1 sp.2
  { postings := sp2.2
    doc_len := ainsert name (aliases.length + 1) i2.doc_len
    doc_aliases := ainsert name aliases i2.doc_aliases
    n_docs := i2.n_docs + 1
    k1 := i2.k1
    b := i2.b }

/-- Model of `clearIndex` (crate/src/lib.rs, lines 648–655). -/
def clear_index (i : Index) : Index :=
  { postings := [], doc_len := [], doc_aliases := [], n_docs := 0, k1 := i.k1, b := i.b }

/-! ## The JSON boundary and the diagnostic helper -/

/-- Position and message of a serde_json parse error, as consumed by
`log_json_error` through `error.line()`, `error.column()` and the
`Display` rendering (carried here in `msg`). -/
structure JsonErr where
  line : Nat
  column : Nat
  msg : String
deriving DecidableEq, Repr

/-- Byte-wise drop on a character list: fails (as Rust slicing panics)
when the byte index falls inside a multi-byte character or past the
end. -/
def dropBytes : List Char → Nat → Option (List Char)
  | cs, 0 => some cs
  | [], _ + 1 => none
  | c :: cs, n + 1 =>
      if c.utf8Size ≤ n + 1 then dropBytes cs (n + 1 - c.utf8Size) else none

/-- Byte-wise take on a character list, failing off char boundaries. -/
def takeBytes : List Char → Nat → Option (List Char)
  | _, 0 => some []
  | [], _ + 1 => none
  | c :: cs, n + 1 =>
      if c.utf8Size ≤ n + 1 then (takeBytes cs (n + 1 - c.utf8Size)).map (c :: ·)
      else none

/-- Model of the Rust byte-range slice `&s[a..b]`: `none` models the
panic on a reversed range, an out-of-range index, or an index that is
not a character boundary. -/
def rustSliceStr (s : String) (a b : Nat) : Option String :=
  if a ≤ b then
    (dropBytes s.data a).bind (fun r => (takeBytes r (b - a)).map String.mk)
  else none

/-- Model of `log_json_error` (crate/src/lib.rs, lines 100–114): format
the positional message, then slice the input at byte range
`max(0, column − 20) .. min(len, column + 20)` — `none` models the panic
when that byte range cuts a multi-byte character. -/
def log_json_error (json : String) (e : JsonErr) : Option String :=
  let errorMsg := "JSON parse error at line " ++ toString e.line ++ ", column " ++
    toString e.column ++ ": " ++ e.msg
  let contextStart := e.column - 20
  let contextEnd := min (utf8Len json) (e.column + 20)
  let ctx := if contextStart < contextEnd then rustSliceStr json contextStart contextEnd
    else some ""
  ctx.map (fun c => errorMsg ++ "\nContext: '" ++ c ++ "'")

/-- Parsed shape of one document of the bulk-load payload: its name and
its alias list (struct `Doc` in crate/src/lib.rs, lines 77–81). -/
abbrev DocRecord := String × List String

/-- Model of `add_documents` (crate/src/lib.rs, lines 137–195).  The
serde_json parser is an external collaborator and is passed in as
`parse`.  On a parse error the diagnostic is built by `log_json_error`
before any mutation; `none` models the panic that `log_json_error` can
raise while slicing the context window.  On success each document is
inserted in order. -/
def add_documents (parse : String → Except JsonErr (List DocRecord)) (json : String)
    (i : Index) : Option ((Except String Unit) × Index) :=
  match parse json with
  | .error e =>
      match log_json_error json e with
      | some m => some (.error m, i)
      | none => none
  | .ok docs => some (.ok (), docs.foldl (fun acc d => add_document_core d.1 d.2 acc) i)

/-- Model of `addDocument` (crate/src/lib.rs, lines 569–614): parse the
alias list (reporting the serde error `Display` text on failure, without
touching the index), then run the shared insertion body. -/
def add_document (parse : String → Except JsonErr (List String)) (name aliases_json : String)
    (i : Index) : (Except String Unit) × Index :=
  match parse aliases_json with
  | .error e => (.error e.msg, i)
  | .ok aliases => (.ok (), add_document_core name aliases i)

/-- Model of `updateDocument` (crate/src/lib.rs, lines 616–634): report
`false` when the name is absent; validate the alias JSON before any
mutation; then remove the old entry and re-add through `addDocument`. -/
def update_document (parse : String → Except JsonErr (List String)) (doc_id aliases_json : String)
    (i : Index) : (Except String Bool) × Index :=
  if (alookup doc_id i.doc_len).isSome then
    match parse aliases_json with
    | .error e => (.error e.msg, i)
    | .ok _ =>
        let i2 := remove_doc doc_id i
        match add_document parse doc_id aliases_json i2 with
        | (Except.error m, j) => (.error m, j)
        | (Except.ok _, j) => (.ok true, j)
  else (.ok false, i)

/-- Model of `replaceAllDocuments` (crate/src/lib.rs, lines 636–646):
clear everything, then run the bulk load. -/
def replace_all_documents (parse : String → Except JsonErr (List DocRecord)) (json : String)
    (i : Index) : Option ((Except String Unit) × Index) :=
  add_documents parse json (clear_index i)

/-! ## Document-store well-formedness -/

/-- Document-store invariant of the specification (§3): `n_docs` equals
the number of live entries of the per-document length map, whose keys
are unique. -/
def Wf (i : Index) : Prop :=
  i.n_docs = i.doc_len.length ∧ (i.doc_len.map Prod.fst).Nodup

instance (i : Index) : Decidable (Wf i) := by
  unfold Wf
  infer_instance

theorem key_not_mem_of_alookup_none {α : Type} (k : String) (l : List (String × α))
    (h : alookup k l = none) : k ∉ l.map Prod.fst := by
  intro hmem
  have := alookup_isSome_of_key_mem k l hmem
  rw [h] at this
  simp at this

theorem remove_doc_eq_of_none (doc : String) (i : Index)
    (h : alookup doc i.doc_len = none) : remove_doc doc i = i := by
  unfold remove_doc
  rw [h]

theorem remove_doc_parts (doc : String) (i : Index) (v : Nat)
    (h : alookup doc i.doc_len = some v) :
    (remove_doc doc i).doc_len = aerase doc i.doc_len ∧
    (remove_doc doc i).doc_aliases = aerase doc i.doc_aliases ∧
    (remove_doc doc i).n_docs = i.n_docs - 1 ∧
    (remove_doc doc i).postings =
      scrubAll doc (scrubTokens doc
        (doc :: (if utf8Len doc < 50 then tokenize_2gram doc else [])) i.postings) := by
  unfold remove_doc
  rw [h]
  exact ⟨rfl, rfl, rfl, rfl⟩

theorem Wf_remove_doc (doc : String) (i : Index) (h : Wf i) : Wf (remove_doc doc i) := by
  cases hl : alookup doc i.doc_len with
  | none => rw [remove_doc_eq_of_none doc i hl]; exact h
  | some v =>
    obtain ⟨hdl, _, hn, _⟩ := remove_doc_parts doc i v hl
    constructor
    · rw [hn, hdl, h.1]
      have := length_aerase_of_mem doc i.doc_len h.2 (by rw [hl]; rfl)
      omega
    · rw [hdl, keys_aerase]
      exact h.2.filter _

theorem Wf_mk_insert (i2 : Index) (name : String) (len : Nat)
    (P A : List (String × List String))
    (h2 : Wf i2) (habs : alookup name i2.doc_len = none) :
    Wf { postings := P, doc_len := ainsert name len i2.doc_len, doc_aliases := A,
         n_docs := i2.n_docs + 1, k1 := i2.k1, b := i2.b } := by
  unfold Wf
  rw [ainsert_of_alookup_none name _ _ habs]
  constructor
  · simp only [List.length_append, List.length_singleton]
    exact congrArg (· + 1) h2.1
  · simp only [List.map_append, List.map_singleton]
    rw [List.nodup_append]
    refine ⟨h2.2, List.nodup_singleton name, ?_⟩
    intro a ha hb
    simp only [List.mem_singleton] at hb
    exact key_not_mem_of_alookup_none name i2.doc_len habs (hb ▸ ha)

theorem Wf_add_document_core (name : String) (aliases : List String) (i : Index)
    (h : Wf i) : Wf (add_document_core name aliases i) := by
  have h2 : Wf (if (alookup name i.doc_len).isSome then remove_doc name i else i) := by
    split
    · exact Wf_remove_doc name i h
    · exact h
  have habs : alookup name
      (if (alookup name i.doc_len).isSome then remove_doc name i else i).doc_len = none := by
    split
    · next hp =>
      cases hl : alookup name i.doc_len with
      | none => rw [hl] at hp; simp at hp
      | some v =>
        rw [(remove_doc_parts name i v hl).1]
        exact alookup_aerase_self name i.doc_len
    · next hp =>
      cases hl : alookup name i.doc_len with
      | none => rfl
      | some v => rw [hl] at hp; simp at hp
  exact Wf_mk_insert _ name _ _ _ h2 habs

/-! ## Properties of the removal scrub (claim C4) -/

theorem mem_aerase {α : Type} (k : String) :
    ∀ (l : List (String × α)) (kv : String × α), kv ∈ aerase k l → kv ∈ l := by
  intro l
  induction l with
  | nil => intro kv h; simp [aerase] at h
  | cons p rest ih =>
    intro kv h
    by_cases hp : p.1 = k
    · simp only [aerase, if_pos hp] at h
      exact List.mem_cons_of_mem p (ih kv h)
    · simp only [aerase, if_neg hp, List.mem_cons] at h
      rcases h with h | h
      · exact h ▸ List.mem_cons_self _ _
      · exact List.mem_cons_of_mem p (ih kv h)

theorem mem_ainsert {α : Type} (k : String) (v : α) :
    ∀ (l : List (String × α)) (kv : String × α), kv ∈ ainsert k v l → kv = (k, v) ∨ kv ∈ l := by
  intro l
  induction l with
  | nil => intro kv h; simpa [ainsert] using h
  | cons p rest ih =>
    intro kv h
    by_cases hp : p.1 = k
    · simp only [ainsert, if_pos hp, List.mem_cons] at h
      rcases h with h | h
      · exact Or.inl h
      · exact Or.inr (List.mem_cons_of_mem p h)
    · simp only [ainsert, if_neg hp, List.mem_cons] at h
      rcases h with h | h
      · exact Or.inr (h ▸ List.mem_cons_self _ _)
      · rcases ih kv h with h2 | h2
        · exact Or.inl h2
        · exact Or.inr (List.mem_cons_of_mem p h2)

theorem scrubTokens_no_empty (doc : String) :
    ∀ (toks : List String) (p : List (String × List String)),
      (∀ kv ∈ p, kv.2 ≠ []) → ∀ kv ∈ scrubTokens doc toks p, kv.2 ≠ [] := by
  intro toks
  induction toks with
  | nil => intro p hp kv h; exact hp kv h
  | cons t rest ih =>
    intro p hp kv h
    rw [scrubTokens] at h
    cases hl : alookup t p with
    | none =>
      rw [hl] at h
      exact ih p hp kv h
    | some pl =>
      rw [hl] at h
      dsimp only at h
      by_cases he : (pl.filter (fun x => x ≠ doc)).isEmpty = true
      · rw [if_pos he] at h
        exact ih _ (fun kv2 h2 => hp kv2 (mem_aerase t p kv2 h2)) kv h
      · rw [if_neg he] at h
        have hne : pl.filter (fun x => x ≠ doc) ≠ [] := by
          intro hnil
          rw [hnil] at he
          simp at he
        split at h
        · rcases mem_ainsert t _ p kv h with h2 | h2
          · rw [h2]; exact hne
          · exact hp kv h2
        · refine ih _ ?_ kv h
          intro kv2 h2
          rcases mem_ainsert t _ p kv2 h2 with h3 | h3
          · rw [h3]; exact hne
          · exact hp kv2 h3

theorem scrubAll_no_doc (doc : String) (p : List (String × List String)) :
    ∀ kv ∈ scrubAll doc p, doc ∉ kv.2 := by
  intro kv h
  unfold scrubAll at h
  rcases List.mem_filterMap.1 h with ⟨kv0, _, heq⟩
  dsimp only at heq
  by_cases hc : (kv0.2.filter (fun x => x ≠ doc)).length = kv0.2.length ∨
      kv0.2.filter (fun x => x ≠ doc) ≠ []
  · rw [if_pos hc] at heq
    have hkv : kv = (kv0.1, kv0.2.filter (fun x => x ≠ doc)) := by
      cases heq
      rfl
    rw [hkv]
    intro hmem
    have := List.of_mem_filter hmem
    simp at this
  · rw [if_neg hc] at heq
    cases heq

theorem scrubAll_no_empty (doc : String) (p : List (String × List String))
    (hp : ∀ kv ∈ p, kv.2 ≠ []) : ∀ kv ∈ scrubAll doc p, kv.2 ≠ [] := by
  intro kv h
  unfold scrubAll at h
  rcases List.mem_filterMap.1 h with ⟨kv0, hkv0, heq⟩
  dsimp only at heq
  by_cases hc : (kv0.2.filter (fun x => x ≠ doc)).length = kv0.2.length ∨
      kv0.2.filter (fun x => x ≠ doc) ≠ []
  · rw [if_pos hc] at heq
    have hkv : kv = (kv0.1, kv0.2.filter (fun x => x ≠ doc)) := by
      cases heq
      rfl
    rw [hkv]
    rcases hc with hc | hc
    · intro hnil
      have h1 : (kv0.2.filter (fun x => x ≠ doc)).length = 0 := by
        simp only at hnil
        rw [hnil]
        rfl
      have h2 : kv0.2.length = 0 := by omega
      exact hp kv0 hkv0 (List.length_eq_zero.1 h2)
    · exact hc
  · rw [if_neg hc] at heq
    cases heq

/-- C4: when a document named `doc` is present (its `doc_len` entry
exists, the live count is at least one, and — as in every reachable
state — no posting list is empty), `removeDocument` returns `true`,
afterwards no posting list contains the document and none is left empty,
`n_docs` decreases by exactly one, and a second `removeDocument` on the
now-absent name returns `false` with the state unchanged. -/
theorem remove_document_spec (i : Index) (doc : String) (v : Nat)
    (hpresent : alookup doc i.doc_len = some v)
    (hcount : 1 ≤ i.n_docs)
    (hne : ∀ kv ∈ i.postings, kv.2 ≠ []) :
    (remove_document doc i).1 = true ∧
    (remove_document doc i).2.n_docs + 1 = i.n_docs ∧
    (∀ kv ∈ (remove_document doc i).2.postings, doc ∉ kv.2 ∧ kv.2 ≠ []) ∧
    remove_document doc (remove_document doc i).2 = (false, (remove_document doc i).2) := by
  have hsome : (alookup doc i.doc_len).isSome = true := by rw [hpresent]; rfl
  have hrd : remove_document doc i = (true, remove_doc doc i) := by
    unfold remove_document
    rw [if_pos hsome]
  obtain ⟨hdl, hda, hn, hpost⟩ := remove_doc_parts doc i v hpresent
  refine ⟨by rw [hrd], ?_, ?_, ?_⟩
  · rw [hrd]
    dsimp only
    omega
  · rw [hrd]
    dsimp only
    rw [hpost]
    intro kv h
    exact ⟨scrubAll_no_doc doc _ kv h,
      scrubAll_no_empty doc _ (scrubTokens_no_empty doc _ i.postings hne) kv h⟩
  · rw [hrd]
    dsimp only
    have habs : alookup doc (remove_doc doc i).doc_len = none := by
      rw [hdl]
      exact alookup_aerase_self doc i.doc_len
    unfold remove_document
    rw [habs]
    rfl

/-- Concrete single-document index used to witness the removal claim. -/
def exIndex : Index :=
  { postings := [("x", ["x"])], doc_len := [("x", 1)], doc_aliases := [("x", [])],
    n_docs := 1, k1 := 0, b := 0 }

theorem remove_document_spec_witness :
    (remove_document "x" exIndex).1 = true ∧
    (remove_document "x" exIndex).2.n_docs + 1 = exIndex.n_docs ∧
    (∀ kv ∈ (remove_document "x" exIndex).2.postings, "x" ∉ kv.2 ∧ kv.2 ≠ []) ∧
    remove_document "x" (remove_document "x" exIndex).2 =
      (false, (remove_document "x" exIndex).2) :=
  remove_document_spec exIndex "x" 1 (by decide) (by decide) (by decide)

theorem Wf_fold_add (docs : List DocRecord) :
    ∀ i : Index, Wf i → Wf (docs.foldl (fun acc d => add_document_core d.1 d.2 acc) i) := by
  induction docs with
  | nil => intro i h; exact h
  | cons d rest ih =>
    intro i h
    exact ih _ (Wf_add_document_core d.1 d.2 i h)

theorem Wf_clear_index (i : Index) : Wf (clear_index i) := by
  constructor
  · rfl
  · exact List.nodup_nil

theorem Wf_add_documents (parse : String → Except JsonErr (List DocRecord)) (json : String)
    (i : Index) (r : (Except String Unit) × Index) (h : Wf i)
    (hsome : add_documents parse json i = some r) : Wf r.2 := by
  unfold add_documents at hsome
  cases hp : parse json with
  | error e =>
    rw [hp] at hsome
    dsimp only at hsome
    cases hle : log_json_error json e with
    | some m =>
      rw [hle] at hsome
      injection hsome with h2
      rw [← h2]
      exact h
    | none =>
      rw [hle] at hsome
      cases hsome
  | ok docs =>
    rw [hp] at hsome
    injection hsome with h2
    rw [← h2]
    exact Wf_fold_add docs i h

theorem Wf_remove_document (doc : String) (i : Index) (h : Wf i) :
    Wf (remove_document doc i).2 := by
  unfold remove_document
  split
  · exact Wf_remove_doc doc i h
  · exact h

theorem Wf_update_document (parse : String → Except JsonErr (List String))
    (did aj : String) (i : Index) (h : Wf i) : Wf (update_document parse did aj i).2 := by
  unfold update_document
  split
  · cases hp : parse aj with
    | error e => exact h
    | ok al =>
      have h2 : Wf (remove_doc did i) := Wf_remove_doc did i h
      have hadd : add_document parse did aj (remove_doc did i) =
          (Except.ok (), add_document_core did al (remove_doc did i)) := by
        unfold add_document
        rw [hp]
      dsimp only
      rw [hadd]
      exact Wf_add_document_core did al _ h2
  · exact h

theorem add_existing_eq_remove_then_add (name : String) (aliases : List String) (i : Index)
    (v : Nat) (hl : alookup name i.doc_len = some v) :
    add_document_core name aliases i =
      add_document_core name aliases (remove_document name i).2 := by
  have h1 : (alookup name i.doc_len).isSome = true := by rw [hl]; rfl
  have hrd : (remove_document name i).2 = remove_doc name i := by
    unfold remove_document
    rw [if_pos h1]
  have habs : alookup name (remove_doc name i).doc_len = none := by
    rw [(remove_doc_parts name i v hl).1]
    exact alookup_aerase_self name i.doc_len
  rw [hrd]
  unfold add_document_core
  rw [if_pos h1, habs]
  dsimp only [Option.isSome_none]
  rw [if_neg (by simp)]

/-- C5: every mutation operation — bulk load, single add, update,
remove, replace-all, clear — preserves the document-store invariant
(`n_docs` equals the number of keys of the per-document length map, and
those keys are unique), and adding a document whose name already exists
produces exactly the state of removing it and then adding it. -/
theorem mutations_preserve_invariant :
    (∀ name aliases i, Wf i → Wf (add_document_core name aliases i)) ∧
    (∀ parse name aj i, Wf i → Wf (add_document parse name aj i).2) ∧
    (∀ parse json i r, Wf i → add_documents parse json i = some r → Wf r.2) ∧
    (∀ parse did aj i, Wf i → Wf (update_document parse did aj i).2) ∧
    (∀ doc i, Wf i → Wf (remove_document doc i).2) ∧
    (∀ parse json i r, Wf i → replace_all_documents parse json i = some r → Wf r.2) ∧
    (∀ i, Wf (clear_index i)) ∧
    (∀ name aliases i v, alookup name i.doc_len = some v →
      add_document_core name aliases i =
        add_document_core name aliases (remove_document name i).2) := by
  refine ⟨Wf_add_document_core, ?_, Wf_add_documents, Wf_update_document,
    Wf_remove_document, ?_, Wf_clear_index, add_existing_eq_remove_then_add⟩
  · intro parse name aj i h
    unfold add_document
    cases hp : parse aj with
    | error e => exact h
    | ok al => exact Wf_add_document_core name al i h
  · intro parse json i r h hsome
    exact Wf_add_documents parse json (clear_index i) r (Wf_clear_index i) hsome

theorem mutations_preserve_invariant_witness :
    Wf (add_document_core "x" ["y"] exIndex) ∧
    Wf (remove_document "x" exIndex).2 ∧
    add_document_core "x" ["y"] exIndex =
      add_document_core "x" ["y"] (remove_document "x" exIndex).2 :=
  ⟨mutations_preserve_invariant.1 "x" ["y"] exIndex (by decide),
   mutations_preserve_invariant.2.2.2.2.1 "x" exIndex (by decide),
   mutations_preserve_invariant.2.2.2.2.2.2.2 "x" ["y"] exIndex 1 (by decide)⟩

/-! ## Parse-failure behaviour (claims C9, C10) -/

/-- Failing input for the diagnostic helper: the parse error position
column 8 (as serde_json reports for the trailing comma) makes the
context window end at byte 28, which falls inside the seventh character
(a three-byte hiragana letter). -/
def jsonCE : String := "[1,2,3,]あいうえおかきくけこ"

/-- Parse error reported for `jsonCE`. -/
def errCE : JsonErr := { line := 1, column := 8, msg := "trailing comma" }

/-- External parser behaviour on the failing input. -/
def parseDocsCE : String → Except JsonErr (List DocRecord) := fun _ => Except.error errCE

theorem log_json_error_jsonCE_eval : log_json_error jsonCE errCE = none := by decide

/-- C10: at the concrete failing input, building the diagnostic message
slices the input at byte 28, inside a multi-byte character, and the
model returns `none` — the Rust code panics instead of returning the
message, contradicting the claimed totality of the error-reporting
path. -/
theorem log_json_error_panics : log_json_error jsonCE errCE = none :=
  log_json_error_jsonCE_eval

/-- C9 (counterexample): on this parse-failing bulk-load input the code
does not return an error at all — `log_json_error` panics while
building the diagnostic (modelled as `none`), so `add_documents` never
reaches its error return. -/
theorem add_documents_panics_on_parse_failure :
    add_documents parseDocsCE jsonCE (Index.mk0 0 0) = none := by
  unfold add_documents
  have h : parseDocsCE jsonCE = Except.error errCE := rfl
  rw [h]
  dsimp only
  rw [log_json_error_jsonCE_eval]

/-- C9 (amended): on a parse failure both operations are atomic —
parsing happens before any mutation, so the index is returned exactly
unchanged — and the reported result is an error whenever the diagnostic
construction itself does not panic: `add_documents` yields the
`log_json_error` message (or panics, with the index still untouched),
and `update_document` on an existing name yields the serde error
text. -/
theorem parse_failure_is_atomic :
    (∀ (parse : String → Except JsonErr (List DocRecord)) (json : String) (i : Index)
        (e : JsonErr), parse json = Except.error e →
      add_documents parse json i =
        (log_json_error json e).map (fun m => (Except.error m, i))) ∧
    (∀ (parse : String → Except JsonErr (List String)) (did aj : String) (i : Index)
        (e : JsonErr), (alookup did i.doc_len).isSome = true → parse aj = Except.error e →
      update_document parse did aj i = (Except.error e.msg, i)) := by
  constructor
  · intro parse json i e hp
    unfold add_documents
    rw [hp]
    dsimp only
    cases hle : log_json_error json e with
    | some m => rfl
    | none => rfl
  · intro parse did aj i e hl hp
    unfold update_document
    rw [if_pos hl, hp]

/-- Parse error used by the witness (pure-ASCII input, so the context
window slicing succeeds). -/
def errW : JsonErr := { line := 1, column := 2, msg := "expected value" }

/-- Witness parser failing on every input. -/
def parseDocsW : String → Except JsonErr (List DocRecord) := fun _ => Except.error errW

/-- Witness parser for alias lists, failing on every input. -/
def parseStrW : String → Except JsonErr (List String) := fun _ => Except.error errW

theorem parse_failure_is_atomic_witness :
    add_documents parseDocsW "abc" exIndex =
      (log_json_error "abc" errW).map (fun m => (Except.error m, exIndex)) ∧
    update_document parseStrW "x" "zz" exIndex = (Except.error errW.msg, exIndex) :=
  ⟨parse_failure_is_atomic.1 parseDocsW "abc" exIndex errW rfl,
   parse_failure_is_atomic.2 parseStrW "x" "zz" exIndex errW (by decide) rfl⟩

/-! ## Persistence (claims C2, C3)

`dump` (crate/src/lib.rs, lines 493–500) is `bincode::serialize` of the
whole `Index` struct, whose derived `Serialize` emits every field in
declaration order: `postings`, `doc_len`, `doc_aliases`, `n_docs`,
`k1`, `b`; `load` is `bincode::deserialize` of the same shape.  The
encoding is modelled on a stream of unbounded cells (`List Nat`):
bincode's length-prefixed collections and strings keep their structure,
with one cell per integer, per code point, and per `f32` bit pattern. -/

def encNat (n : Nat) : List Nat := [n]

def encStr (s : String) : List Nat := s.data.length :: s.data.map Char.toNat

def encListWith {α : Type} (f : α → List Nat) (l : List α) : List Nat :=
  l.length :: (l.map f).flatten

def encStrList (l : List String) : List Nat := encListWith encStr l

/-- Model of `dump`: the bincode serialization of all six `Index`
fields in declaration order. -/
def dumpBytes (i : Index) : List Nat :=
  encListWith (fun kv => encStr kv.1 ++ encStrList kv.2) i.postings ++
    (encListWith (fun kv => encStr kv.1 ++ encNat kv.2) i.doc_len ++
      (encListWith (fun kv => encStr kv.1 ++ encStrList kv.2) i.doc_aliases ++
        (encNat i.n_docs ++ (encNat i.k1 ++ encNat i.b))))

def decNat : List Nat → Option (Nat × List Nat)
  | [] => none
  | n :: rest => some (n, rest)

def decChars : Nat → List Nat → Option (List Char × List Nat)
  | 0, bs => some ([], bs)
  | _ + 1, [] => none
  | n + 1, c :: bs => (decChars n bs).map (fun p => (Char.ofNat c :: p.1, p.2))

def decStr (bs : List Nat) : Option (String × List Nat) :=
  match decNat bs with
  | none => none
  | some (n, r) => (decChars n r).map (fun p => (String.mk p.1, p.2))

def decMany {α : Type} (dec : List Nat → Option (α × List Nat)) :
    Nat → List Nat → Option (List α × List Nat)
  | 0, bs => some ([], bs)
  | n + 1, bs =>
      match dec bs with
      | none => none
      | some (a, r) =>
          match decMany dec n r with
          | none => none
          | some (l, r2) => some (a :: l, r2)

def decListWith {α : Type} (dec : List Nat → Option (α × List Nat)) (bs : List Nat) :
    Option (List α × List Nat) :=
  match decNat bs with
  | none => none
  | some (n, r) => decMany dec n r

def decPair {α β : Type} (d1 : List Nat → Option (α × List Nat))
    (d2 : List Nat → Option (β × List Nat)) (bs : List Nat) : Option ((α × β) × List Nat) :=
  match d1 bs with
  | none => none
  | some (a, r) =>
      match d2 r with
      | none => none
      | some (b2, r2) => some ((a, b2), r2)

/-- Model of `load`: the bincode deserialization of the six fields. -/
def loadBytes (bs : List Nat) : Option Index :=
  match decListWith (decPair decStr (decListWith decStr)) bs with
  | none => none
  | some (p, r1) =>
      match decListWith (decPair decStr decNat) r1 with
      | none => none
      | some (dl, r2) =>
          match decListWith (decPair decStr (decListWith decStr)) r2 with
          | none => none
          | some (da, r3) =>
              match decNat r3 with
              | none => none
              | some (n, r4) =>
                  match decNat r4 with
                  | none => none
                  | some (k1v, r5) =>
                      match decNat r5 with
                      | none => none
                      | some (bv, _) =>
                          some { postings := p, doc_len := dl, doc_aliases := da,
                                 n_docs := n, k1 := k1v, b := bv }

theorem decNat_enc (n : Nat) (t : List Nat) : decNat (encNat n ++ t) = some (n, t) := rfl

theorem decChars_enc (cs : List Char) (t : List Nat) :
    decChars cs.length (cs.map Char.toNat ++ t) = some (cs, t) := by
  induction cs with
  | nil => rfl
  | cons c rest ih =>
    simp only [List.length_cons, List.map_cons, List.cons_append, decChars, List.append_eq,
      ih, Option.map_some]
    simp [Char.ofNat_toNat]

theorem decStr_enc (s : String) (t : List Nat) : decStr (encStr s ++ t) = some (s, t) := by
  unfold decStr encStr
  rw [List.cons_append]
  show (decChars s.data.length (s.data.map Char.toNat ++ t)).map _ = _
  rw [decChars_enc]
  rfl

theorem decMany_enc {α : Type} (dec : List Nat → Option (α × List Nat)) (f : α → List Nat)
    (hdec : ∀ x t, dec (f x ++ t) = some (x, t)) :
    ∀ (l : List α) (t : List Nat),
      decMany dec l.length ((l.map f).flatten ++ t) = some (l, t) := by
  intro l
  induction l with
  | nil => intro t; rfl
  | cons a rest ih =>
    intro t
    rw [List.length_cons, decMany]
    have harg : ((a :: rest).map f).flatten ++ t = f a ++ ((rest.map f).flatten ++ t) := by
      simp
    rw [harg, hdec a]
    dsimp only
    rw [ih t]

theorem decListWith_enc {α : Type} (dec : List Nat → Option (α × List Nat)) (f : α → List Nat)
    (hdec : ∀ x t, dec (f x ++ t) = some (x, t)) (l : List α) (t : List Nat) :
    decListWith dec (encListWith f l ++ t) = some (l, t) := by
  unfold decListWith encListWith
  rw [List.cons_append]
  show decMany dec l.length ((l.map f).flatten ++ t) = some (l, t)
  exact decMany_enc dec f hdec l t

theorem decPair_enc {α β : Type} (d1 : List Nat → Option (α × List Nat))
    (d2 : List Nat → Option (β × List Nat)) (f1 : α → List Nat) (f2 : β → List Nat)
    (h1 : ∀ x t, d1 (f1 x ++ t) = some (x, t)) (h2 : ∀ x t, d2 (f2 x ++ t) = some (x, t))
    (p : α × β) (t : List Nat) : decPair d1 d2 ((f1 p.1 ++ f2 p.2) ++ t) = some (p, t) := by
  unfold decPair
  rw [List.append_assoc, h1]
  dsimp only
  rw [h2]

theorem decStrList_enc (l : List String) (t : List Nat) :
    decListWith decStr (encStrList l ++ t) = some (l, t) :=
  decListWith_enc decStr encStr decStr_enc l t

theorem load_dump_roundtrip (i : Index) : loadBytes (dumpBytes i) = some i := by
  unfold loadBytes dumpBytes
  rw [decListWith_enc (decPair decStr (decListWith decStr))
    (fun kv => encStr kv.1 ++ encStrList kv.2)
    (fun kv t => decPair_enc _ _ _ _ decStr_enc decStrList_enc kv t)]
  dsimp only
  rw [decListWith_enc (decPair decStr decNat) (fun kv => encStr kv.1 ++ encNat kv.2)
    (fun kv t => decPair_enc _ _ _ _ decStr_enc decNat_enc kv t)]
  dsimp only
  rw [decListWith_enc (decPair decStr (decListWith decStr))
    (fun kv => encStr kv.1 ++ encStrList kv.2)
    (fun kv t => decPair_enc _ _ _ _ decStr_enc decStrList_enc kv t)]
  dsimp only
  rw [decNat_enc]
  dsimp only
  rw [decNat_enc]
  dsimp only
  rfl

/-- Index pairs agreeing on the document store but not on the postings,
used against the claim that the postings are never serialized. -/
def idxP1 : Index :=
  { postings := [("a", ["x"])], doc_len := [("x", 1)], doc_aliases := [("x", [])],
    n_docs := 1, k1 := 0, b := 0 }

/-- Same document store as `idxP1`, empty postings. -/
def idxP2 : Index :=
  { postings := [], doc_len := [("x", 1)], doc_aliases := [("x", [])],
    n_docs := 1, k1 := 0, b := 0 }

/-- C2 (counterexample): two states with identical document store
(name→aliases), identical `n_docs` and identical lengths map, differing
only in the Postings Index, produce different serialized buffers — so
`dump` does serialize the postings, contradicting the claim (and no
schema version tag exists anywhere in the serialized struct). -/
theorem dump_serializes_postings :
    idxP1.doc_aliases = idxP2.doc_aliases ∧ idxP1.n_docs = idxP2.n_docs ∧
    idxP1.doc_len = idxP2.doc_len ∧ dumpBytes idxP1 ≠ dumpBytes idxP2 := by
  refine ⟨rfl, rfl, rfl, ?_⟩
  decide

/-- C2 (amended): `dump` serializes the entire `Index` struct — the
Postings Index, the per-document lengths, the document store
(name→aliases), `n_docs`, and the two ranking parameters — with no
version tag; the buffer determines every field, the postings
included. -/
theorem dump_determines_full_state (i1 i2 : Index) (h : dumpBytes i1 = dumpBytes i2) :
    i1.postings = i2.postings ∧ i1 = i2 := by
  have h1 := load_dump_roundtrip i1
  have h2 := load_dump_roundtrip i2
  rw [h, h2] at h1
  injection h1 with h3
  exact ⟨by rw [h3], h3.symm⟩

theorem dump_determines_full_state_witness :
    exIndex.postings = exIndex.postings ∧ exIndex = exIndex :=
  dump_determines_full_state exIndex exIndex rfl

/-- C3: reloading a dumped index succeeds and reproduces the document
store exactly — the name→aliases map and `n_docs` of the loaded index
equal those of the original (indeed the whole state does); the `Index`
struct carries no normalization-cache state, so nothing cached can
influence the buffer. -/
theorem load_dump_preserves_store (i : Index) :
    ∃ j, loadBytes (dumpBytes i) = some j ∧ j.doc_aliases = i.doc_aliases ∧
      j.n_docs = i.n_docs ∧ j = i :=
  ⟨i, load_dump_roundtrip i, rfl, rfl, rfl⟩

/-! ## Query expansion (claim C6, crate/src/lib.rs lines 241–285) -/

/-- Model of Rust's `char::is_ascii_alphabetic`. -/
def isAsciiAlphaB (c : Char) : Bool :=
  (65 ≤ c.toNat && c.toNat ≤ 90) || (97 ≤ c.toNat && c.toNat ≤ 122)

/-- ASCII lowercasing, which coincides with Rust's `to_lowercase` on the
pure-ASCII strings it is applied to here. -/
def asciiLower (s : String) : String :=
  String.mk (s.data.map (fun c =>
    if 65 ≤ c.toNat ∧ c.toNat ≤ 90 then Char.ofNat (c.toNat + 32) else c))

/-- State of the expansion loop: the `expanded_2gram` vector and the
`seen_tokens` set (as a membership list). -/
structure ExpSt where
  expanded : List String
  seen : List String

/-- Model of `if seen_tokens.insert(token) { expanded_2gram.push(token) }`. -/
def addIfNew (st : ExpSt) (t : String) : ExpSt :=
  if t ∈ st.seen then st else { expanded := st.expanded ++ [t], seen := t :: st.seen }

/-- Transliteration stage of one loop iteration (lines 248–263): for a
short pure-ASCII-alphabetic term whose hiragana form differs from the
term, push the hiragana form unconditionally, then its bigram tokens
deduplicated. -/
def expandHiraStage (hira : String → String) (st1 : ExpSt) (term : String) : ExpSt :=
  if utf8Len term < 50 ∧ term.data.all isAsciiAlphaB = true then
    let h := hira (asciiLower term)
    if h ≠ term then
      (tokenize_2gram h).foldl addIfNew
        { expanded := st1.expanded ++ [h], seen := h :: st1.seen }
    else st1
  else st1

/-- Bigram stage of one loop iteration (lines 266–273): for a term under
100 bytes, push its bigram tokens deduplicated. -/
def expandBigramStage (st2 : ExpSt) (term : String) : ExpSt :=
  if utf8Len term < 100 then (tokenize_2gram term).foldl addIfNew st2 else st2

/-- One iteration of the expansion loop (lines 241–274): the verbatim
term is pushed unconditionally and recorded as seen, then the
transliteration stage, then the bigram stage. -/
def expandStep (hira : String → String) (st : ExpSt) (term : String) : ExpSt :=
  expandBigramStage
    (expandHiraStage hira { expanded := st.expanded ++ [term], seen := term :: st.seen } term)
    term

/-- Longest-first comparison used by
`expanded_2gram.sort_by(|a, b| b.len().cmp(&a.len()))`. -/
def lenDescLE (a b : String) : Prop := utf8Len b ≤ utf8Len a

instance : DecidableRel lenDescLE := fun a b => Nat.decLe (utf8Len b) (utf8Len a)

instance : IsTotal String lenDescLE := ⟨fun a b => Nat.le_total (utf8Len b) (utf8Len a)⟩

instance : IsTrans String lenDescLE := ⟨fun _ _ _ h1 h2 => le_trans h2 h1⟩

/-- Model of the full query expansion of `search` (crate/src/lib.rs,
lines 241–285): fold the per-term step over the raw terms, then sort
the token list longest-first. -/
def expandQuery (hira : String → String) (original : List String) : List String :=
  List.insertionSort lenDescLE
    ((original.foldl (expandStep hira) { expanded := [], seen := [] }).expanded)

/-- Seen-tokens are always a subset of the emitted tokens. -/
def ExpInv (st : ExpSt) : Prop := ∀ x ∈ st.seen, x ∈ st.expanded

theorem addIfNew_mono (st : ExpSt) (t : String) :
    ∀ x ∈ st.expanded, x ∈ (addIfNew st t).expanded := by
  intro x hx
  unfold addIfNew
  split
  · exact hx
  · exact List.mem_append_left _ hx

theorem addIfNew_inv (st : ExpSt) (t : String) (h : ExpInv st) : ExpInv (addIfNew st t) := by
  unfold addIfNew
  split
  · exact h
  · intro x hx
    dsimp only at hx ⊢
    rcases List.mem_cons.1 hx with h2 | h2
    · exact List.mem_append_right _ (by simp [h2])
    · exact List.mem_append_left _ (h x h2)

theorem foldl_addIfNew_mono (toks : List String) :
    ∀ st, ∀ x ∈ st.expanded, x ∈ (toks.foldl addIfNew st).expanded := by
  induction toks with
  | nil => intro st x hx; exact hx
  | cons t rest ih =>
    intro st x hx
    exact ih _ x (addIfNew_mono st t x hx)

theorem foldl_addIfNew_inv (toks : List String) :
    ∀ st, ExpInv st → ExpInv (toks.foldl addIfNew st) := by
  induction toks with
  | nil => intro st h; exact h
  | cons t rest ih =>
    intro st h
    exact ih _ (addIfNew_inv st t h)

theorem foldl_addIfNew_mem (toks : List String) :
    ∀ st, ExpInv st → ∀ g ∈ toks, g ∈ (toks.foldl addIfNew st).expanded := by
  induction toks with
  | nil => intro st _ g hg; simp at hg
  | cons t rest ih =>
    intro st hinv g hg
    rcases List.mem_cons.1 hg with h | h
    · subst h
      refine foldl_addIfNew_mono rest _ g ?_
      unfold addIfNew
      split
      · next hseen => exact hinv g hseen
      · exact List.mem_append_right _ (by simp)
    · exact ih _ (addIfNew_inv st t hinv) g h

theorem expandHiraStage_mono (hira : String → String) (st1 : ExpSt) (term : String) :
    ∀ x ∈ st1.expanded, x ∈ (expandHiraStage hira st1 term).expanded := by
  intro x hx
  unfold expandHiraStage
  split
  · dsimp only
    split
    · exact foldl_addIfNew_mono _ _ x (List.mem_append_left _ hx)
    · exact hx
  · exact hx

theorem expandHiraStage_inv (hira : String → String) (st1 : ExpSt) (term : String)
    (h : ExpInv st1) : ExpInv (expandHiraStage hira st1 term) := by
  unfold expandHiraStage
  split
  · dsimp only
    split
    · refine foldl_addIfNew_inv _ _ ?_
      intro x hx
      dsimp only at hx ⊢
      rcases List.mem_cons.1 hx with h2 | h2
      · exact List.mem_append_right _ (by simp [h2])
      · exact List.mem_append_left _ (h x h2)
    · exact h
  · exact h

theorem expandBigramStage_mono (st2 : ExpSt) (term : String) :
    ∀ x ∈ st2.expanded, x ∈ (expandBigramStage st2 term).expanded := by
  intro x hx
  unfold expandBigramStage
  split
  · exact foldl_addIfNew_mono _ _ x hx
  · exact hx

theorem expandBigramStage_inv (st2 : ExpSt) (term : String) (h : ExpInv st2) :
    ExpInv (expandBigramStage st2 term) := by
  unfold expandBigramStage
  split
  · exact foldl_addIfNew_inv _ _ h
  · exact h

theorem expandStep_mono (hira : String → String) (st : ExpSt) (term : String) :
    ∀ x ∈ st.expanded, x ∈ (expandStep hira st term).expanded := by
  intro x hx
  unfold expandStep
  exact expandBigramStage_mono _ _ x
    (expandHiraStage_mono hira _ term x (List.mem_append_left _ hx))

theorem expandStep_inv (hira : String → String) (st : ExpSt) (term : String)
    (h : ExpInv st) : ExpInv (expandStep hira st term) := by
  unfold expandStep
  refine expandBigramStage_inv _ _ (expandHiraStage_inv hira _ term ?_)
  intro x hx
  dsimp only at hx ⊢
  rcases List.mem_cons.1 hx with h2 | h2
  · exact List.mem_append_right _ (by simp [h2])
  · exact List.mem_append_left _ (h x h2)

theorem expandStep_mem_term (hira : String → String) (st : ExpSt) (term : String) :
    term ∈ (expandStep hira st term).expanded := by
  unfold expandStep
  exact expandBigramStage_mono _ _ term
    (expandHiraStage_mono hira _ term term (List.mem_append_right _ (by simp)))

theorem expandStep_mem_hira (hira : String → String) (st : ExpSt) (term : String)
    (hinv : ExpInv st)
    (h50 : utf8Len term < 50) (halpha : term.data.all isAsciiAlphaB = true)
    (hdiff : hira (asciiLower term) ≠ term) :
    hira (asciiLower term) ∈ (expandStep hira st term).expanded ∧
    ∀ g ∈ tokenize_2gram (hira (asciiLower term)),
      g ∈ (expandStep hira st term).expanded := by
  have hst1 : ExpInv { expanded := st.expanded ++ [term], seen := term :: st.seen } := by
    intro x hx
    dsimp only at hx ⊢
    rcases List.mem_cons.1 hx with h2 | h2
    · exact List.mem_append_right _ (by simp [h2])
    · exact List.mem_append_left _ (hinv x h2)
  have hstage : expandHiraStage hira
      { expanded := st.expanded ++ [term], seen := term :: st.seen } term =
      (tokenize_2gram (hira (asciiLower term))).foldl addIfNew
        { expanded := (st.expanded ++ [term]) ++ [hira (asciiLower term)],
          seen := hira (asciiLower term) :: term :: st.seen } := by
    unfold expandHiraStage
    rw [if_pos ⟨h50, halpha⟩, if_pos hdiff]
  constructor
  · unfold expandStep
    rw [hstage]
    refine expandBigramStage_mono _ _ _ ?_
    exact foldl_addIfNew_mono _ _ _ (List.mem_append_right _ (by simp))
  · intro g hg
    unfold expandStep
    rw [hstage]
    refine expandBigramStage_mono _ _ _ ?_
    refine foldl_addIfNew_mem _ _ ?_ g hg
    intro x hx
    dsimp only at hx ⊢
    rcases List.mem_cons.1 hx with h2 | h2
    · exact List.mem_append_right _ (by simp [h2])
    · exact List.mem_append_left _ (hst1 x h2)

theorem expandStep_mem_bigrams (hira : String → String) (st : ExpSt) (term : String)
    (hinv : ExpInv st) (h100 : utf8Len term < 100) :
    ∀ g ∈ tokenize_2gram term, g ∈ (expandStep hira st term).expanded := by
  intro g hg
  unfold expandStep expandBigramStage
  rw [if_pos h100]
  refine foldl_addIfNew_mem _ _ ?_ g hg
  refine expandHiraStage_inv hira _ term ?_
  intro x hx
  dsimp only at hx ⊢
  rcases List.mem_cons.1 hx with h2 | h2
  · exact List.mem_append_right _ (by simp [h2])
  · exact List.mem_append_left _ (hinv x h2)

theorem expand_fold_mono (hira : String → String) (original : List String) :
    ∀ st, ∀ x ∈ st.expanded, x ∈ (original.foldl (expandStep hira) st).expanded := by
  induction original with
  | nil => intro st x hx; exact hx
  | cons u rest ih =>
    intro st x hx
    exact ih _ x (expandStep_mono hira st u x hx)

theorem expand_fold_mem (hira : String → String) (original : List String) :
    ∀ st, ExpInv st → ∀ t ∈ original,
      t ∈ (original.foldl (expandStep hira) st).expanded ∧
      (utf8Len t < 50 → t.data.all isAsciiAlphaB = true → hira (asciiLower t) ≠ t →
        hira (asciiLower t) ∈ (original.foldl (expandStep hira) st).expanded ∧
        ∀ g ∈ tokenize_2gram (hira (asciiLower t)),
          g ∈ (original.foldl (expandStep hira) st).expanded) ∧
      (utf8Len t < 100 → ∀ g ∈ tokenize_2gram t,
        g ∈ (original.foldl (expandStep hira) st).expanded) := by
  induction original with
  | nil => intro st _ t ht; simp at ht
  | cons u rest ih =>
    intro st hinv t ht
    rcases List.mem_cons.1 ht with h | h
    · subst h
      refine ⟨expand_fold_mono hira rest _ t (expandStep_mem_term hira st t), ?_, ?_⟩
      · intro h50 halpha hdiff
        obtain ⟨h1, h2⟩ := expandStep_mem_hira hira st t hinv h50 halpha hdiff
        exact ⟨expand_fold_mono hira rest _ _ h1,
          fun g hg => expand_fold_mono hira rest _ g (h2 g hg)⟩
      · intro h100 g hg
        exact expand_fold_mono hira rest _ g (expandStep_mem_bigrams hira st t hinv h100 g hg)
    · exact ih _ (expandStep_inv hira st u hinv) t h

/-- C6 (counterexample): the claim says all inclusions into the
expanded token list are deduplicated, but a verbatim term is pushed
unconditionally, so the duplicate raw query ["1", "1"] expands to a
list containing "1" twice. -/
theorem expandQuery_duplicates :
    expandQuery (fun s => s) ["1", "1"] = ["1", "1"] ∧
    ¬ (expandQuery (fun s => s) ["1", "1"]).Nodup := by
  exact ⟨by decide, by decide⟩

/-- C6 (amended): the expanded token list contains each raw term
verbatim; for a term shorter than 50 bytes that is pure ASCII
alphabetic and whose transliteration differs from it, it contains the
transliteration and the transliteration's bigrams; for a term shorter
than 100 bytes it contains the term's bigrams; bigram inclusions are
deduplicated against tokens already present, while verbatim terms and
their transliterations are appended unconditionally (so a duplicated
raw term appears twice); and the final list is sorted longest-first
(by byte length, descending). -/
theorem expandQuery_spec (hira : String → String) (original : List String) :
    (∀ t ∈ original, t ∈ expandQuery hira original) ∧
    (∀ t ∈ original, utf8Len t < 50 → t.data.all isAsciiAlphaB = true →
      hira (asciiLower t) ≠ t →
      hira (asciiLower t) ∈ expandQuery hira original ∧
      ∀ g ∈ tokenize_2gram (hira (asciiLower t)), g ∈ expandQuery hira original) ∧
    (∀ t ∈ original, utf8Len t < 100 →
      ∀ g ∈ tokenize_2gram t, g ∈ expandQuery hira original) ∧
    (expandQuery hira original).Pairwise lenDescLE := by
  have hmem : ∀ x : String,
      x ∈ (original.foldl (expandStep hira) { expanded := [], seen := [] }).expanded →
      x ∈ expandQuery hira original := by
    intro x hx
    unfold expandQuery
    exact (List.mem_insertionSort lenDescLE).2 hx
  have hinv0 : ExpInv { expanded := [], seen := [] } := by
    intro x hx
    simp at hx
  refine ⟨?_, ?_, ?_, ?_⟩
  · intro t ht
    exact hmem t (expand_fold_mem hira original _ hinv0 t ht).1
  · intro t ht h50 halpha hdiff
    obtain ⟨h1, h2⟩ := (expand_fold_mem hira original _ hinv0 t ht).2.1 h50 halpha hdiff
    exact ⟨hmem _ h1, fun g hg => hmem g (h2 g hg)⟩
  · intro t ht h100 g hg
    exact hmem g ((expand_fold_mem hira original _ hinv0 t ht).2.2 h100 g hg)
  · exact List.sorted_insertionSort lenDescLE _

/-- Transliteration stand-in used by the expansion witness. -/
def hiraW : String → String := fun _ => "かか"

theorem expandQuery_spec_witness :
    "ab" ∈ expandQuery hiraW ["ab"] ∧ "かか" ∈ expandQuery hiraW ["ab"] ∧
    (expandQuery hiraW ["ab"]).Pairwise lenDescLE :=
  ⟨(expandQuery_spec hiraW ["ab"]).1 "ab" (by decide),
   ((expandQuery_spec hiraW ["ab"]).2.1 "ab" (by decide) (by decide) (by decide)
     (by decide)).1,
   (expandQuery_spec hiraW ["ab"]).2.2.2⟩

/-! ## Match priority and ranking (claim C1, crate/src/lib.rs lines 6–75
and 379–478) -/

/-- Bit flag `MATCH_NAME_EXACT` (0b100000). -/
def matchNameExactFlag : Nat := 32
/-- Bit flag `MATCH_ALIAS_EXACT` (0b010000). -/
def matchAliasExactFlag : Nat := 16
/-- Bit flag `MATCH_NAME_PREFIX` (0b001000). -/
def matchNamePfxFlag : Nat := 8
/-- Bit flag `MATCH_ALIAS_PREFIX` (0b000100). -/
def matchAliasPfxFlag : Nat := 4
/-- Bit flag `MATCH_NAME_PARTIAL` (0b000010). -/
def matchNamePartFlag : Nat := 2
/-- Bit flag `MATCH_ALIAS_PARTIAL` (0b000001). -/
def matchAliasPartFlag : Nat := 1

/-- Model of `calculate_priority` (crate/src/lib.rs, lines 59–75): the
priority of the best (highest) flag set in the accumulated match-type
bitmask; 0 when no flag is set. -/
def calculate_priority (m : Nat) : Nat :=
  if m &&& matchNameExactFlag ≠ 0 then 100
  else if m &&& matchAliasExactFlag ≠ 0 then 90
  else if m &&& matchNamePfxFlag ≠ 0 then 80
  else if m &&& matchAliasPfxFlag ≠ 0 then 70
  else if m &&& matchNamePartFlag ≠ 0 then 60
  else if m &&& matchAliasPartFlag ≠ 0 then 50
  else 0

theorem and_pow_ne_zero (m k : Nat) : (m &&& 2 ^ k ≠ 0) ↔ m.testBit k = true := by
  rw [Nat.and_two_pow]
  cases h : m.testBit k
  · simp
  · simp

/-- Priority as a chain of bit tests, used to reason about bitmask
unions. -/
def prioOf (m : Nat) : List (Nat × Nat) → Nat
  | [] => 0
  | (k, v) :: rest => if m.testBit k then v else prioOf m rest

/-- The six (bit, priority) levels of `calculate_priority`, best
first. -/
def prioChain : List (Nat × Nat) := [(5, 100), (4, 90), (3, 80), (2, 70), (1, 60), (0, 50)]

theorem calculate_priority_eq_prioOf (m : Nat) :
    calculate_priority m = prioOf m prioChain := by
  unfold calculate_priority prioChain
  simp only [prioOf]
  have h5 : matchNameExactFlag = 2 ^ 5 := rfl
  have h4 : matchAliasExactFlag = 2 ^ 4 := rfl
  have h3 : matchNamePfxFlag = 2 ^ 3 := rfl
  have h2 : matchAliasPfxFlag = 2 ^ 2 := rfl
  have h1 : matchNamePartFlag = 2 ^ 1 := rfl
  have h0 : matchAliasPartFlag = 2 ^ 0 := rfl
  simp only [h5, h4, h3, h2, h1, h0, and_pow_ne_zero]

theorem prioOf_le (m v : Nat) :
    ∀ chain : List (Nat × Nat), (∀ p ∈ chain, p.2 ≤ v) → prioOf m chain ≤ v := by
  intro chain
  induction chain with
  | nil => intro _; exact Nat.zero_le v
  | cons q rest ih =>
    intro h
    unfold prioOf
    split
    · exact h q (List.mem_cons_self q rest)
    · exact ih fun p hp => h p (List.mem_cons_of_mem q hp)

theorem prioOf_or (a b : Nat) :
    ∀ chain : List (Nat × Nat), chain.Pairwise (fun p q => q.2 ≤ p.2) →
      prioOf (a ||| b) chain = max (prioOf a chain) (prioOf b chain) := by
  intro chain
  induction chain with
  | nil => intro _; rfl
  | cons q rest ih =>
    intro hp
    have hrest : ∀ p ∈ rest, p.2 ≤ q.2 := fun p hp2 => List.rel_of_pairwise_cons hp hp2
    unfold prioOf
    rw [Nat.testBit_or]
    cases ha : a.testBit q.1 <;> cases hb : b.testBit q.1
    · simp only [Bool.or_self]
      exact ih hp.of_cons
    · simp only [Bool.false_or, if_true, if_false]
      exact (Nat.max_eq_right (prioOf_le a q.2 rest hrest)).symm
    · simp only [Bool.true_or, if_true, if_false]
      exact (Nat.max_eq_left (prioOf_le b q.2 rest hrest)).symm
    · simp

theorem calculate_priority_or (a b : Nat) :
    calculate_priority (a ||| b) = max (calculate_priority a) (calculate_priority b) := by
  rw [calculate_priority_eq_prioOf, calculate_priority_eq_prioOf,
    calculate_priority_eq_prioOf]
  exact prioOf_or a b prioChain (by decide)

/-- Scored candidate of the sort path: document id, accumulated score
(compared with `partial_cmp`, modelled on `Rat`), and match-type
bitmask. -/
abbrev Cand := String × Rat × Nat

/-- Priority of a candidate, as computed at crate/src/lib.rs lines
461–462. -/
def candPri (c : Cand) : Nat := calculate_priority c.2.2

/-- Accumulated score of a candidate. -/
def candScore (c : Cand) : Rat := c.2.1

/-- Ordering of the sort path (crate/src/lib.rs, lines 456–469):
priority descending, then score descending — `rankLE a b` states that
`a` may come before `b`. -/
def rankLE (a b : Cand) : Prop :=
  candPri b < candPri a ∨ (candPri a = candPri b ∧ candScore b ≤ candScore a)

instance : DecidableRel rankLE := fun a b => by
  unfold rankLE
  infer_instance

instance : IsTotal Cand rankLE := ⟨by
  intro a b
  unfold rankLE
  rcases Nat.lt_trichotomy (candPri a) (candPri b) with h | h | h
  · exact Or.inr (Or.inl h)
  · rcases le_total (candScore b) (candScore a) with h2 | h2
    · exact Or.inl (Or.inr ⟨h, h2⟩)
    · exact Or.inr (Or.inr ⟨h.symm, h2⟩)
  · exact Or.inl (Or.inl h)⟩

instance : IsTrans Cand rankLE := ⟨by
  intro a b c h1 h2
  unfold rankLE at h1 h2 ⊢
  rcases h1 with h1 | ⟨h1e, h1s⟩
  · rcases h2 with h2 | ⟨h2e, h2s⟩
    · exact Or.inl (lt_trans h2 h1)
    · exact Or.inl (h2e ▸ h1)
  · rcases h2 with h2 | ⟨h2e, h2s⟩
    · exact Or.inl (h1e ▸ h2)
    · exact Or.inr ⟨h1e.trans h2e, le_trans h2s h1s⟩⟩

/-- Sort path of the top-K selection (crate/src/lib.rs, lines 444–478):
sort all candidates by the priority-then-score comparator and keep the
first `limit`. -/
def selectTopSort (cands : List Cand) (limit : Nat) : List Cand :=
  (List.insertionSort rankLE cands).take limit

/-- Ranked document ids returned by the sort path. -/
def rankCandidates (cands : List Cand) (limit : Nat) : List String :=
  (selectTopSort cands limit).map (fun c => c.1)

/-- Scored candidate of the heap path (`ScoredDoc`, crate/src/lib.rs
lines 387–393): document id, `f32::to_bits` of the score, and the
match-type bitmask. -/
abbrev HCand := String × Nat × Nat

/-- Priority of a heap candidate. -/
def hPri (c : HCand) : Nat := calculate_priority c.2.2

/-- Score bit pattern of a heap candidate. -/
def hBits (c : HCand) : Nat := c.2.1

/-- Ascending ordering of the bounded min-heap (`Ord for ScoredDoc`,
crate/src/lib.rs lines 401–407): worse priority first, then smaller
score bits. -/
def heapAscLE (a b : HCand) : Prop :=
  hPri a < hPri b ∨ (hPri a = hPri b ∧ hBits a ≤ hBits b)

instance : DecidableRel heapAscLE := fun a b => by
  unfold heapAscLE
  infer_instance

instance : IsTotal HCand heapAscLE := ⟨by
  intro a b
  unfold heapAscLE
  rcases Nat.lt_trichotomy (hPri a) (hPri b) with h | h | h
  · exact Or.inl (Or.inl h)
  · rcases Nat.le_total (hBits a) (hBits b) with h2 | h2
    · exact Or.inl (Or.inr ⟨h, h2⟩)
    · exact Or.inr (Or.inr ⟨h.symm, h2⟩)
  · exact Or.inr (Or.inl h)⟩

instance : IsTrans HCand heapAscLE := ⟨by
  intro a b c h1 h2
  unfold heapAscLE at h1 h2 ⊢
  rcases h1 with h1 | ⟨h1e, h1s⟩
  · rcases h2 with h2 | ⟨h2e, h2s⟩
    · exact Or.inl (lt_trans h1 h2)
    · exact Or.inl (h2e ▸ h1)
  · rcases h2 with h2 | ⟨h2e, h2s⟩
    · exact Or.inl (h1e ▸ h2)
    · exact Or.inr ⟨h1e.trans h2e, le_trans h1s h2s⟩⟩

/-- One push into the bounded min-heap (crate/src/lib.rs, lines
426–431): insert in heap order, then evict the worst (minimum) entry
when the capacity `limit` is exceeded.  The heap is modelled by its
sorted ascending sequence. -/
def heapPush (limit : Nat) (h : List HCand) (c : HCand) : List HCand :=
  let h2 := List.orderedInsert heapAscLE c h
  if limit < h2.length then h2.tail else h2

/-- Heap path of the top-K selection (crate/src/lib.rs, lines 410–441):
push every candidate through the bounded heap, then emit in descending
quality order (pop ascending, reverse). -/
def heapSelect (cands : List HCand) (limit : Nat) : List HCand :=
  (cands.foldl (heapPush limit) []).reverse

theorem heapPush_sorted (limit : Nat) (h : List HCand) (c : HCand)
    (hs : List.Sorted heapAscLE h) : List.Sorted heapAscLE (heapPush limit h c) := by
  unfold heapPush
  dsimp only
  split
  · exact (hs.orderedInsert c h).tail
  · exact hs.orderedInsert c h

theorem heapFold_sorted (limit : Nat) (cands : List HCand) :
    ∀ h, List.Sorted heapAscLE h →
      List.Sorted heapAscLE (cands.foldl (heapPush limit) h) := by
  induction cands with
  | nil => intro h hs; exact hs
  | cons c rest ih =>
    intro h hs
    exact ih _ (heapPush_sorted limit h c hs)

/-- C1: a candidate's priority is the best (maximum-priority) class
over all flags contributed by tokens — `calculate_priority` of the
OR-accumulated bitmask is the maximum of the per-flag priorities — and
both top-K paths order the returned candidates primarily by that
class: in the sorted output (sort path) and in the heap output (heap
path), an earlier document's class is at least as good as a later
one's, and strictly better whenever the scores compare the other
way. -/
theorem search_ranking_by_best_class (cands : List Cand) (hcands : List HCand) (limit : Nat) :
    (∀ flags : List Nat,
      calculate_priority (flags.foldl (fun acc f => acc ||| f) 0) =
        (flags.map calculate_priority).foldl max 0) ∧
    (∀ i j : Fin (selectTopSort cands limit).length, i < j →
      candPri ((selectTopSort cands limit).get j) ≤
        candPri ((selectTopSort cands limit).get i) ∧
      (candScore ((selectTopSort cands limit).get i) <
          candScore ((selectTopSort cands limit).get j) →
        candPri ((selectTopSort cands limit).get j) <
          candPri ((selectTopSort cands limit).get i))) ∧
    (∀ i j : Fin (heapSelect hcands limit).length, i < j →
      hPri ((heapSelect hcands limit).get j) ≤ hPri ((heapSelect hcands limit).get i) ∧
      (hBits ((heapSelect hcands limit).get i) < hBits ((heapSelect hcands limit).get j) →
        hPri ((heapSelect hcands limit).get j) < hPri ((heapSelect hcands limit).get i))) := by
  refine ⟨?_, ?_, ?_⟩
  · intro flags
    have key : ∀ (fs : List Nat) (acc : Nat),
        calculate_priority (fs.foldl (fun x f => x ||| f) acc) =
          (fs.map calculate_priority).foldl max (calculate_priority acc) := by
      intro fs
      induction fs with
      | nil => intro acc; rfl
      | cons f rest ih =>
        intro acc
        simp only [List.foldl_cons, List.map_cons]
        rw [ih, calculate_priority_or]
    have h0 : calculate_priority 0 = 0 := rfl
    rw [key flags 0, h0]
  · intro i j hij
    have hsorted : (selectTopSort cands limit).Pairwise rankLE :=
      List.Pairwise.sublist (List.take_sublist limit _) (List.sorted_insertionSort rankLE cands)
    have hrel : rankLE ((selectTopSort cands limit).get i)
        ((selectTopSort cands limit).get j) :=
      List.Sorted.rel_get_of_lt hsorted hij
    unfold rankLE at hrel
    rcases hrel with h | ⟨he, hs⟩
    · exact ⟨le_of_lt h, fun _ => h⟩
    · refine ⟨le_of_eq he.symm, fun hlt => absurd hs (not_le.2 hlt)⟩
  · intro i j hij
    have hsorted : (hcands.foldl (heapPush limit) []).Sorted heapAscLE :=
      heapFold_sorted limit hcands [] List.sorted_nil
    have hpair : (heapSelect hcands limit).Pairwise (fun a b => heapAscLE b a) := by
      unfold heapSelect
      exact List.pairwise_reverse.2 hsorted
    have hrel : heapAscLE ((heapSelect hcands limit).get j)
        ((heapSelect hcands limit).get i) :=
      List.Sorted.rel_get_of_lt hpair hij
    unfold heapAscLE at hrel
    rcases hrel with h | ⟨he, hs⟩
    · exact ⟨le_of_lt h, fun _ => h⟩
    · refine ⟨le_of_eq he, fun hlt => absurd hs (not_le.2 hlt)⟩

/-- Candidates used by the ranking witness: one name-exact match with a
low score, one alias-exact match with a higher score. -/
def candsW : List Cand := [("a", 1, 32), ("b", 7, 16)]

/-- Heap-path candidates used by the ranking witness. -/
def hcandsW : List HCand := [("a", 1, 32), ("b", 7, 16)]

theorem search_ranking_by_best_class_witness :
    calculate_priority (([32, 16] : List Nat).foldl (fun acc f => acc ||| f) 0) =
      (([32, 16] : List Nat).map calculate_priority).foldl max 0 ∧
    candPri ((selectTopSort candsW 2).get ⟨1, by decide⟩) ≤
      candPri ((selectTopSort candsW 2).get ⟨0, by decide⟩) ∧
    hPri ((heapSelect hcandsW 2).get ⟨1, by decide⟩) ≤
      hPri ((heapSelect hcandsW 2).get ⟨0, by decide⟩) :=
  ⟨(search_ranking_by_best_class candsW hcandsW 2).1 [32, 16],
   ((search_ranking_by_best_class candsW hcandsW 2).2.1 ⟨0, by decide⟩ ⟨1, by decide⟩
     (by decide)).1,
   ((search_ranking_by_best_class candsW hcandsW 2).2.2 ⟨0, by decide⟩ ⟨1, by decide⟩
     (by decide)).1⟩

/-! ## AND search (claim C7, crate/src/search.rs lines 17–77) -/

/-- Contiguous-subsequence test on character lists, modelling Rust's
`str::contains` for a literal pattern (UTF-8 is self-synchronizing, so
byte-level containment coincides with character-level containment). -/
def containsSeq (nd : List Char) : List Char → Bool
  | [] => nd.isEmpty
  | c :: rest => nd.isPrefixOf (c :: rest) || containsSeq nd rest

/-- Substring test on strings. -/
def strContainsB (hay needle : String) : Bool := containsSeq needle.data hay.data

/-- External text collaborators of the AND search: Unicode lowercasing
(`str::to_lowercase`) and the wana_kana hiragana transliteration. -/
structure MatchCtx where
  lower : String → String
  hira : String → String

/-- Model of `StringCache::get_hiragana` (crate/src/cache.rs, lines
30–42): for a pure-ASCII string, the transliteration of its lowercase
form; `none` otherwise.  The cache is memoization only, so it is
modelled by the pure function it caches. -/
def getHira (m : MatchCtx) (s : String) : Option String :=
  if s.data.all (fun c => c.toNat ≤ 127) then some (m.hira (m.lower s)) else none

/-- Per-keyword name test of `search_and` (crate/src/search.rs, lines
26–30): the lowercased name contains the keyword, or the name's
hiragana form (when available) contains the keyword's hiragana form. -/
def kwMatchesName (m : MatchCtx) (name kw : String) : Bool :=
  strContainsB (m.lower name) kw ||
    (match getHira m name with
     | some h => strContainsB h (m.hira kw)
     | none => false)

/-- Pass-1 condition: every keyword matches the name. -/
def nameMatchesAll (m : MatchCtx) (kws : List String) (name : String) : Bool :=
  kws.all (kwMatchesName m name)

/-- Pass-2 condition: every keyword matches the name or some alias
(crate/src/search.rs, lines 49–66). -/
def docMatchesAll (m : MatchCtx) (kws : List String) (d : String × List String) : Bool :=
  kws.all (fun kw => kwMatchesName m d.1 kw || d.2.any (fun a => kwMatchesName m a kw))

/-- Pass 1 of `search_and` (crate/src/search.rs, lines 22–38): emit
every name-matching document in iteration order, deduplicated through
`seen`, returning early (flag `true`) once `limit` entries were
pushed. -/
def pass1 (m : MatchCtx) (kws : List String) (limit : Nat) :
    List (String × List String) → List String → List String →
      List String × List String × Bool
  | [], acc, seen => (acc, seen, false)
  | d :: rest, acc, seen =>
      if nameMatchesAll m kws d.1 = true then
        if d.1 ∈ seen then pass1 m kws limit rest acc seen
        else
          if limit ≤ (acc ++ [d.1]).length then (acc ++ [d.1], d.1 :: seen, true)
          else pass1 m kws limit rest (acc ++ [d.1]) (d.1 :: seen)
      else pass1 m kws limit rest acc seen

/-- Pass 2 of `search_and` (crate/src/search.rs, lines 41–74): skip
documents already emitted, emit every remaining name-or-alias-matching
document, with the same early return at `limit`. -/
def pass2 (m : MatchCtx) (kws : List String) (limit : Nat) :
    List (String × List String) → List String → List String → List String
  | [], acc, _ => acc
  | d :: rest, acc, seen =>
      if d.1 ∈ seen then pass2 m kws limit rest acc seen
      else if docMatchesAll m kws d = true then
        if limit ≤ (acc ++ [d.1]).length then acc ++ [d.1]
        else pass2 m kws limit rest (acc ++ [d.1]) (d.1 :: seen)
      else pass2 m kws limit rest acc seen

/-- Model of `search_and`: run pass 1; if it returned early the result
stands, otherwise continue with pass 2 over the same documents. -/
def search_and (m : MatchCtx) (docs : List (String × List String)) (kws : List String)
    (limit : Nat) : List String :=
  let r1 := pass1 m kws limit docs [] []
  if r1.2.2 = true then r1.1 else pass2 m kws limit docs r1.1 r1.2.1

/-- Reference pass-1 output, transcribed from the claim: every document
whose name contains every keyword, in iteration order. -/
def pass1Docs (m : MatchCtx) (kws : List String) (docs : List (String × List String)) :
    List String :=
  (docs.filter (fun d => nameMatchesAll m kws d.1)).map Prod.fst

/-- Reference pass-2 output, transcribed from the claim: every
not-yet-emitted document whose name or some alias contains every
keyword. -/
def pass2Docs (m : MatchCtx) (kws : List String) (docs : List (String × List String)) :
    List String :=
  (docs.filter (fun d => docMatchesAll m kws d && !(nameMatchesAll m kws d.1))).map Prod.fst

theorem one_le_max_limit (limit : Nat) : 1 ≤ max limit 1 := Nat.le_max_right limit 1

theorem mem_pass1Docs_iff (m : MatchCtx) (kws : List String)
    (docs : List (String × List String)) (d : String × List String) (hd : d ∈ docs) :
    d.1 ∈ pass1Docs m kws docs ↔ nameMatchesAll m kws d.1 = true := by
  unfold pass1Docs
  constructor
  · intro h
    rcases List.mem_map.1 h with ⟨d2, hd2, heq⟩
    have hc := (List.mem_filter.1 hd2).2
    rw [← heq]
    exact hc
  · intro h
    exact List.mem_map.2 ⟨d, List.mem_filter.2 ⟨hd, h⟩, rfl⟩

theorem pass1_spec (m : MatchCtx) (kws : List String) (limit : Nat) :
    ∀ (docs : List (String × List String)) (acc seen : List String),
      (∀ x, x ∈ seen ↔ x ∈ acc) →
      (∀ d ∈ docs, d.1 ∉ seen) →
      (docs.map Prod.fst).Nodup →
      acc.length < max limit 1 →
      (if max limit 1 ≤ (acc ++ pass1Docs m kws docs).length
       then ∃ seen2, pass1 m kws limit docs acc seen =
         ((acc ++ pass1Docs m kws docs).take (max limit 1), seen2, true)
       else ∃ seen2, pass1 m kws limit docs acc seen =
         (acc ++ pass1Docs m kws docs, seen2, false) ∧
         (∀ x, x ∈ seen2 ↔ x ∈ acc ++ pass1Docs m kws docs)) := by
  intro docs
  induction docs with
  | nil =>
    intro acc seen hseen _ _ hlen
    have hp : pass1Docs m kws [] = [] := rfl
    rw [hp, List.append_nil, if_neg (by omega)]
    exact ⟨seen, rfl, fun x => by rw [hseen x]⟩
  | cons d rest ih =>
    intro acc seen hseen hnot hnd hlen
    have hd1 : d.1 ∉ seen := hnot d (List.mem_cons_self d rest)
    simp only [List.map_cons, List.nodup_cons] at hnd
    by_cases hm : nameMatchesAll m kws d.1 = true
    · have hp1 : pass1Docs m kws (d :: rest) = d.1 :: pass1Docs m kws rest := by
        unfold pass1Docs
        simp [List.filter_cons, hm]
      have hstep : pass1 m kws limit (d :: rest) acc seen =
          (if limit ≤ (acc ++ [d.1]).length then (acc ++ [d.1], d.1 :: seen, true)
           else pass1 m kws limit rest (acc ++ [d.1]) (d.1 :: seen)) := by
        rw [pass1, if_pos hm, if_neg hd1]
      rw [hp1]
      have hassoc : acc ++ d.1 :: pass1Docs m kws rest =
          (acc ++ [d.1]) ++ pass1Docs m kws rest := by
        simp
      by_cases hcap : limit ≤ (acc ++ [d.1]).length
      · have hlen2 : (acc ++ [d.1]).length = acc.length + 1 := by simp
        have hLeq : max limit 1 = acc.length + 1 := by
          rw [hlen2] at hcap
          omega
        have hcond : max limit 1 ≤ (acc ++ d.1 :: pass1Docs m kws rest).length := by
          simp only [List.length_append, List.length_cons]
          omega
        rw [if_pos hcond]
        refine ⟨d.1 :: seen, ?_⟩
        rw [hstep, if_pos hcap]
        have htake : (acc ++ d.1 :: pass1Docs m kws rest).take (max limit 1) =
            acc ++ [d.1] := by
          rw [hassoc, hLeq, ← hlen2, List.take_left]
        rw [htake]
      · have hlen2 : (acc ++ [d.1]).length < max limit 1 := by
          simp only [List.length_append, List.length_singleton]
          simp only [List.length_append, List.length_singleton] at hcap
          omega
        have hseen2 : ∀ x, x ∈ d.1 :: seen ↔ x ∈ acc ++ [d.1] := by
          intro x
          simp only [List.mem_cons, List.mem_append, List.mem_singleton]
          rw [hseen x]
          tauto
        have hnot2 : ∀ d2 ∈ rest, d2.1 ∉ d.1 :: seen := by
          intro d2 hd2
          simp only [List.mem_cons]
          push_neg
          constructor
          · intro heq
            exact hnd.1 (heq ▸ List.mem_map.2 ⟨d2, hd2, rfl⟩)
          · exact hnot d2 (List.mem_cons_of_mem d hd2)
        have := ih (acc ++ [d.1]) (d.1 :: seen) hseen2 hnot2 hnd.2 hlen2
        rw [hstep, if_neg hcap, hassoc]
        exact this
    · have hp1 : pass1Docs m kws (d :: rest) = pass1Docs m kws rest := by
        unfold pass1Docs
        simp [List.filter_cons, hm]
      have hstep : pass1 m kws limit (d :: rest) acc seen =
          pass1 m kws limit rest acc seen := by
        rw [pass1, if_neg hm]
      rw [hp1, hstep]
      exact ih acc seen hseen (fun d2 hd2 => hnot d2 (List.mem_cons_of_mem d hd2)) hnd.2 hlen

theorem pass2_spec (m : MatchCtx) (kws : List String) (limit : Nat) :
    ∀ (docs : List (String × List String)) (acc seen : List String),
      (∀ d ∈ docs, (d.1 ∈ seen ↔ nameMatchesAll m kws d.1 = true)) →
      (docs.map Prod.fst).Nodup →
      acc.length < max limit 1 →
      pass2 m kws limit docs acc seen =
        (acc ++ pass2Docs m kws docs).take (max limit 1) := by
  intro docs
  induction docs with
  | nil =>
    intro acc seen _ _ hlen
    have hp : pass2Docs m kws [] = [] := rfl
    rw [hp, List.append_nil, List.take_of_length_le (Nat.le_of_lt hlen)]
    rfl
  | cons d rest ih =>
    intro acc seen hseen hnd hlen
    simp only [List.map_cons, List.nodup_cons] at hnd
    by_cases hs : d.1 ∈ seen
    · have hm : nameMatchesAll m kws d.1 = true := (hseen d (List.mem_cons_self d rest)).1 hs
      have hp2 : pass2Docs m kws (d :: rest) = pass2Docs m kws rest := by
        unfold pass2Docs
        simp [List.filter_cons, hm]
      have hstep : pass2 m kws limit (d :: rest) acc seen =
          pass2 m kws limit rest acc seen := by
        rw [pass2, if_pos hs]
      rw [hp2, hstep]
      exact ih acc seen (fun d2 hd2 => hseen d2 (List.mem_cons_of_mem d hd2)) hnd.2 hlen
    · have hm : ¬ nameMatchesAll m kws d.1 = true :=
        fun h => hs ((hseen d (List.mem_cons_self d rest)).2 h)
      by_cases hdm : docMatchesAll m kws d = true
      · have hp2 : pass2Docs m kws (d :: rest) = d.1 :: pass2Docs m kws rest := by
          unfold pass2Docs
          simp [List.filter_cons, hm, hdm]
        have hstep : pass2 m kws limit (d :: rest) acc seen =
            (if limit ≤ (acc ++ [d.1]).length then acc ++ [d.1]
             else pass2 m kws limit rest (acc ++ [d.1]) (d.1 :: seen)) := by
          rw [pass2, if_neg hs, if_pos hdm]
        rw [hp2, hstep]
        have hassoc : acc ++ d.1 :: pass2Docs m kws rest =
            (acc ++ [d.1]) ++ pass2Docs m kws rest := by
          simp
        by_cases hcap : limit ≤ (acc ++ [d.1]).length
        · rw [if_pos hcap]
          have hlen2 : (acc ++ [d.1]).length = acc.length + 1 := by simp
          have hLeq : max limit 1 = acc.length + 1 := by
            rw [hlen2] at hcap
            omega
          rw [hassoc, hLeq, ← hlen2, List.take_left]
        · rw [if_neg hcap]
          have hlen2 : (acc ++ [d.1]).length < max limit 1 := by
            simp only [List.length_append, List.length_singleton]
            simp only [List.length_append, List.length_singleton] at hcap
            omega
          have hseen2 : ∀ d2 ∈ rest, (d2.1 ∈ d.1 :: seen ↔ nameMatchesAll m kws d2.1 = true) := by
            intro d2 hd2
            simp only [List.mem_cons]
            constructor
            · intro h
              rcases h with h | h
              · exact absurd (h ▸ List.mem_map.2 ⟨d2, hd2, rfl⟩) hnd.1
              · exact (hseen d2 (List.mem_cons_of_mem d hd2)).1 h
            · intro h
              exact Or.inr ((hseen d2 (List.mem_cons_of_mem d hd2)).2 h)
          rw [hassoc]
          exact ih (acc ++ [d.1]) (d.1 :: seen) hseen2 hnd.2 hlen2
      · have hp2 : pass2Docs m kws (d :: rest) = pass2Docs m kws rest := by
          unfold pass2Docs
          simp [List.filter_cons, hdm]
        have hstep : pass2 m kws limit (d :: rest) acc seen =
            pass2 m kws limit rest acc seen := by
          rw [pass2, if_neg hs, if_neg hdm]
        rw [hp2, hstep]
        exact ih acc seen (fun d2 hd2 => hseen d2 (List.mem_cons_of_mem d hd2)) hnd.2 hlen

/-- Identity collaborators used by the AND-search counterexample and
witness. -/
def ctxId : MatchCtx := { lower := fun s => s, hira := fun s => s }

/-- C7 (counterexample): with `limit = 0` the cap is checked only after
a push, so a matching document is still emitted — the result has one
entry, exceeding the claimed bound of at most `limit` documents. -/
theorem search_and_limit_zero_emits :
    search_and ctxId [("x", [])] ["x"] 0 = ["x"] ∧
    ¬ ((search_and ctxId [("x", [])] ["x"] 0).length ≤ 0) := by
  exact ⟨by decide, by decide⟩

/-- C7 (amended): for documents with unique names, the AND search
returns exactly the first `max(limit, 1)` entries of: first every
document whose name contains every keyword (case-insensitive with the
phonetic fallback), in iteration order, then every remaining document
whose name or some alias contains every keyword — deduplicated by
construction; in particular the result is capped at `limit` whenever
`limit ≥ 1`, while `limit = 0` still emits one matching document. -/
theorem search_and_matches_two_pass (m : MatchCtx) (docs : List (String × List String))
    (kws : List String) (limit : Nat) (hnd : (docs.map Prod.fst).Nodup) :
    search_and m docs kws limit =
      (pass1Docs m kws docs ++ pass2Docs m kws docs).take (max limit 1) := by
  have hinit : ([] : List String).length < max limit 1 :=
    Nat.lt_of_lt_of_le Nat.zero_lt_one (one_le_max_limit limit)
  have h1 := pass1_spec m kws limit docs [] [] (by simp) (by simp) hnd hinit
  unfold search_and
  by_cases hc : max limit 1 ≤ ([] ++ pass1Docs m kws docs).length
  · rw [if_pos hc] at h1
    rcases h1 with ⟨seen2, heq⟩
    rw [heq]
    dsimp only
    simp only [List.nil_append] at hc ⊢
    rw [if_pos trivial, List.take_append_of_le_length hc]
  · rw [if_neg hc] at h1
    rcases h1 with ⟨seen2, heq, hseen2⟩
    rw [heq]
    dsimp only
    rw [if_neg (by simp)]
    simp only [List.nil_append] at hc hseen2 ⊢
    have hlen : (pass1Docs m kws docs).length < max limit 1 := by omega
    have hseen3 : ∀ d ∈ docs, (d.1 ∈ seen2 ↔ nameMatchesAll m kws d.1 = true) := by
      intro d hd
      rw [hseen2 d.1]
      exact mem_pass1Docs_iff m kws docs d hd
    rw [pass2_spec m kws limit docs (pass1Docs m kws docs) seen2 hseen3 hnd hlen]

theorem search_and_matches_two_pass_witness :
    search_and ctxId [("ax", []), ("b", ["ap"])] ["a"] 10 =
      (pass1Docs ctxId ["a"] [("ax", []), ("b", ["ap"])] ++
        pass2Docs ctxId ["a"] [("ax", []), ("b", ["ap"])]).take (max 10 1) :=
  search_and_matches_two_pass ctxId [("ax", []), ("b", ["ap"])] ["a"] 10 (by decide)
